import Mathlib

/-!
Verification of the httprouter repository (trie-based HTTP request router).

The file embeds, as executable Lean definitions, the parts of the program
that the claims under scrutiny are about:

* the route-pattern matching semantics of the radix-tree matcher
  (the tree code itself, tree.go, is not part of the provided sources, so
  the matcher is modelled from the specification, section 4.2);
* the path canonicalizer CleanPath (path.go is likewise absent from the
  sources; modelled from the specification, section 4.4);
* the dispatch logic of Router.ServeHTTP, Router.Lookup and Router.Handle
  (from router.go);
* the middleware chain utility (NewMiddleware, Then);
* the default request-parameter store (defaultSetParams, defaultParams).

Go panics are modelled as error values of an Except type; Go nil pointers
and nil functions are modelled with Option.
-/

namespace HttpRouter

/-- Modelled from the spec (sections 3, 4.1): one component of a registered
route pattern. A pattern such as /blog/:category/:post is a list of
segments; :name is a named parameter, *name a catch-all. -/
inductive Seg where
  | static (s : String)
  | param (name : String)
  | catchAll (name : String)
deriving DecidableEq, Repr

/-- A route pattern is the list of its slash-separated segments. -/
abbrev Pat := List Seg

/-- Modelled from the spec (section 4.2, Route Matcher): matching one
pattern against the slash-separated segments of a concrete request path,
collecting the captured parameters in pattern order. A static segment
matches by equality; a named parameter matches one nonempty segment; a
catch-all must be terminal and consumes the nonempty remainder verbatim. -/
def patCapture : Pat → List String → Option (List (String × String))
  | [], [] => some []
  | .static s :: r, x :: xs => if s = x then patCapture r xs else none
  | .param n :: r, x :: xs =>
      if x = "" then none else (patCapture r xs).map (fun ps => (n, x) :: ps)
  | .catchAll n :: r, xs =>
      if r = [] ∧ xs ≠ [] then some [(n, String.intercalate "/" xs)] else none
  | _, _ => none

/-- Modelled from the spec (sections 3 and 4.1, insertion conflict rules):
two patterns conflict when insertion of the second into a tree holding the
first would be rejected. Identical patterns are a DuplicateRoute conflict;
a parameter segment conflicts with any differently-named parameter or any
static sibling at the same fork; a catch-all conflicts with any sibling at
its fork. -/
def conflict : Pat → Pat → Bool
  | [], [] => true
  | [], _ => false
  | _, [] => false
  | .static s :: r1, .static t :: r2 => if s = t then conflict r1 r2 else false
  | .param a :: r1, .param b :: r2 => if a = b then conflict r1 r2 else true
  | .catchAll _ :: _, _ => true
  | _, .catchAll _ :: _ => true
  | .static _ :: _, .param _ :: _ => true
  | .param _ :: _, .static _ :: _ => true

theorem conflict_comm : ∀ p q : Pat, conflict p q = conflict q p := by
  intro p
  induction p with
  | nil =>
    intro q
    cases q with
    | nil => rfl
    | cons sq rq => cases sq <;> rfl
  | cons sp rp ih =>
    intro q
    cases q with
    | nil => cases sp <;> rfl
    | cons sq rq =>
      cases sp <;> cases sq <;>
        simp only [conflict, ih rq] <;>
        (rename_i a b
         by_cases hab : a = b
         · subst hab
           simp [ih rq]
         · have hba : ¬b = a := fun h => hab h.symm
           simp [hab, hba])

theorem conflict_refl : ∀ p : Pat, conflict p p = true := by
  intro p
  induction p with
  | nil => rfl
  | cons s r ih => cases s <;> simp [conflict, ih]

/-- Patterns that do not conflict can never both match one concrete path:
this is the heart of the non-ambiguity invariant. -/
theorem no_double_match : ∀ (p1 p2 : Pat) (xs : List String),
    conflict p1 p2 = false →
    (patCapture p1 xs).isSome → (patCapture p2 xs).isSome → False := by
  intro p1
  induction p1 with
  | nil =>
    intro p2 xs hc h1 h2
    cases xs with
    | nil =>
      cases p2 with
      | nil => simp [conflict] at hc
      | cons s2 r2 =>
        cases s2 <;> simp [patCapture] at h2
    | cons x xs => simp [patCapture] at h1
  | cons s1 r1 ih =>
    intro p2 xs hc h1 h2
    cases p2 with
    | nil =>
      cases xs with
      | nil => cases s1 <;> simp [patCapture] at h1
      | cons x xs => simp [patCapture] at h2
    | cons s2 r2 =>
      cases s1 with
      | static a =>
        cases s2 with
        | static b =>
          by_cases hab : a = b
          · subst hab
            simp [conflict] at hc
            cases xs with
            | nil => simp [patCapture] at h1
            | cons x xs =>
              by_cases hax : a = x
              · simp [patCapture, hax] at h1 h2
                exact ih r2 xs hc h1 h2
              · simp [patCapture, hax] at h1
          · cases xs with
            | nil => simp [patCapture] at h1
            | cons x xs =>
              by_cases hax : a = x
              · by_cases hbx : b = x
                · exact hab (hax.trans hbx.symm)
                · simp [patCapture, hbx] at h2
              · simp [patCapture, hax] at h1
        | param b => simp [conflict] at hc
        | catchAll b => simp [conflict] at hc
      | param a =>
        cases s2 with
        | static b => simp [conflict] at hc
        | param b =>
          by_cases hab : a = b
          · subst hab
            simp [conflict] at hc
            cases xs with
            | nil => simp [patCapture] at h1
            | cons x xs =>
              by_cases hx : x = ""
              · simp [patCapture, hx] at h1
              · simp [patCapture, hx] at h1 h2
                exact ih r2 xs hc h1 h2
          · simp [conflict, hab] at hc
        | catchAll b => simp [conflict] at hc
      | catchAll a => simp [conflict] at hc

/-- Modelled from the spec (section 6, Matching API): the outcome of a
route lookup is either a matched handler with its captured parameters, or
a not-found value carrying the trailing-slash redirect hint. -/
inductive MatchOutcome (H : Type) where
  | matched (handler : H) (params : List (String × String))
  | notFound (tsr : Bool)
deriving DecidableEq, Repr

def MatchOutcome.isMatched {H : Type} : MatchOutcome H → Bool
  | .matched _ _ => true
  | .notFound _ => false

/-- Modelled from the spec (section 4.2): the segment-level effect of
toggling a single trailing slash on a request path. A path ending in a
slash ends in an empty final segment. -/
def toggleTs (xs : List String) : List String :=
  if xs.getLast? = some "" then xs.dropLast else xs ++ [""]

/-- Modelled from the spec (section 4.2): the trailing-slash hint is set
when toggling a trailing slash on the request path would reach a
registered route. -/
def tsrHint {H : Type} (ps : List (Pat × H)) (xs : List String) : Bool :=
  ps.any fun e => (patCapture e.1 (toggleTs xs)).isSome

/-- Modelled from the spec (section 4.2, Route Matcher): lookup of a
request path (as slash-separated segments) against the registered routes
of one method tree. The tree code itself (tree.go) is absent from the
sources, so the tree is modelled by the list of its registered routes and
lookup by locating the route whose pattern matches. -/
def lookupList {H : Type} (ps : List (Pat × H)) (xs : List String) : MatchOutcome H :=
  match ps.find? (fun e => (patCapture e.1 xs).isSome) with
  | some e => .matched e.2 ((patCapture e.1 xs).getD [])
  | none => .notFound (tsrHint ps xs)

/-- A registration set is conflict-free when no two of its routes would
have been rejected against each other at insertion time. -/
def ConflictFree {H : Type} (ps : List (Pat × H)) : Prop :=
  ps.Pairwise fun a b => conflict a.1 b.1 = false

instance {H : Type} (ps : List (Pat × H)) : Decidable (ConflictFree ps) :=
  List.instDecidablePairwise ps

theorem match_mem_unique {H : Type} (ps : List (Pat × H))
    (path : List String) (e1 e2 : Pat × H)
    (hcf : ConflictFree ps) (h1 : e1 ∈ ps) (h2 : e2 ∈ ps)
    (m1 : (patCapture e1.1 path).isSome) (m2 : (patCapture e2.1 path).isSome) :
    e1 = e2 := by
  by_contra hne
  have hsym : ∀ ⦃a b : Pat × H⦄, conflict a.1 b.1 = false → conflict b.1 a.1 = false := by
    intro a b h
    rw [conflict_comm]
    exact h
  have hR : conflict e1.1 e2.1 = false := List.Pairwise.forall hsym hcf h1 h2 hne
  exact no_double_match e1.1 e2.1 path hR m1 m2

/-- C1: for every conflict-free registered route set and every concrete
request path, at most one registered route matches the path: matching is
unambiguous by construction, independent of priority or registration
order, so lookup returns at most one handler. -/
theorem uniqueness_of_matching {H : Type} (ps : List (Pat × H))
    (path : List String) (e1 e2 : Pat × H)
    (hcf : ConflictFree ps) (h1 : e1 ∈ ps) (h2 : e2 ∈ ps)
    (m1 : (patCapture e1.1 path).isSome) (m2 : (patCapture e2.1 path).isSome) :
    e1 = e2 :=
  match_mem_unique ps path e1 e2 hcf h1 h2 m1 m2

/-- Evaluation of the uniqueness theorem at a concrete route set. -/
theorem uniqueness_of_matching_witness :
    (patCapture [Seg.static "user", Seg.param "id"] ["user", "7"]).isSome ∧
    (([Seg.static "user", Seg.param "id"], (1 : Nat)) =
      ([Seg.static "user", Seg.param "id"], 1)) :=
  ⟨by decide,
    uniqueness_of_matching
      [([Seg.static "user", Seg.param "id"], 1),
       ([Seg.static "files", Seg.catchAll "filepath"], 2)]
      ["user", "7"] _ _ (by decide) (by decide) (by decide)
      (by decide) (by decide)⟩

theorem perm_any {α : Type} (p : α → Bool) {l1 l2 : List α}
    (h : l1.Perm l2) : l1.any p = l2.any p := by
  induction h with
  | nil => rfl
  | cons x _ ih => simp [List.any_cons, ih]
  | swap x y l =>
    cases hx : p x <;> cases hy : p y <;> simp [List.any_cons, hx, hy]
  | trans _ _ ih1 ih2 => exact ih1.trans ih2

/-- C7: lookup is deterministic and registration-order independent: two
conflict-free registrations of the same route set, in any two orders,
yield the same lookup outcome (handler, parameters and trailing-slash
hint) on every path. -/
theorem lookup_order_independent {H : Type} (ps1 ps2 : List (Pat × H))
    (path : List String) (hperm : ps1.Perm ps2) (hcf : ConflictFree ps1) :
    lookupList ps1 path = lookupList ps2 path := by
  unfold lookupList
  cases hf1 : ps1.find? (fun e => (patCapture e.1 path).isSome) with
  | none =>
    cases hf2 : ps2.find? (fun e => (patCapture e.1 path).isSome) with
    | none =>
      have h : tsrHint ps1 path = tsrHint ps2 path :=
        perm_any (fun e : Pat × H => (patCapture e.1 (toggleTs path)).isSome) hperm
      rw [h]
    | some e2 =>
      have hmem : e2 ∈ ps1 := hperm.mem_iff.mpr (List.mem_of_find?_eq_some hf2)
      have hp := List.find?_some hf2
      rw [List.find?_eq_none] at hf1
      exact absurd hp (by simpa using hf1 e2 hmem)
  | some e1 =>
    cases hf2 : ps2.find? (fun e => (patCapture e.1 path).isSome) with
    | none =>
      have hmem : e1 ∈ ps2 := hperm.mem_iff.mp (List.mem_of_find?_eq_some hf1)
      have hp := List.find?_some hf1
      rw [List.find?_eq_none] at hf2
      exact absurd hp (by simpa using hf2 e1 hmem)
    | some e2 =>
      have h1 : e1 ∈ ps1 := List.mem_of_find?_eq_some hf1
      have h2 : e2 ∈ ps1 := hperm.mem_iff.mpr (List.mem_of_find?_eq_some hf2)
      have hp1 := List.find?_some hf1
      have hp2 := List.find?_some hf2
      rw [match_mem_unique ps1 path e1 e2 hcf h1 h2 hp1 hp2]

/-- Evaluation of order independence on a two-route set registered in the
two possible orders. -/
theorem lookup_order_independent_witness :
    lookupList
      [([Seg.static "a"], (1 : Nat)), ([Seg.static "b"], 2)] ["a"] =
    lookupList
      [([Seg.static "b"], 2), ([Seg.static "a"], 1)] ["a"] :=
  lookup_order_independent
    [([Seg.static "a"], 1), ([Seg.static "b"], 2)]
    [([Seg.static "b"], 2), ([Seg.static "a"], 1)]
    ["a"]
    (List.Perm.swap ([Seg.static "b"], 2) ([Seg.static "a"], 1) [])
    (by decide)

/-- Splitting a character list at every slash; tokens may be empty. -/
def splitSl : List Char → List (List Char)
  | [] => [[]]
  | c :: cs =>
    if c = '/' then [] :: splitSl cs
    else
      match splitSl cs with
      | [] => [[c]]
      | t :: ts => (c :: t) :: ts

/-- Nonempty slash-separated tokens of a character list. -/
def tokens (l : List Char) : List (List Char) :=
  (splitSl l).filter (fun t => !t.isEmpty)

/-- Modelled from the spec (section 4.4): resolution of dot segments; the
accumulator holds the resolved segments in reverse. A dot segment is
dropped; a dot-dot segment pops the previous resolved segment and is a
no-op at the root, never escaping above the root. -/
def resolveGo : List (List Char) → List (List Char) → List (List Char)
  | acc, [] => acc.reverse
  | acc, t :: ts =>
    if t = ['.'] then resolveGo acc ts
    else if t = ['.', '.'] then resolveGo acc.tail ts
    else resolveGo (t :: acc) ts

/-- Joining segments with single slashes. -/
def interSl : List (List Char) → List Char
  | [] => []
  | [s] => s
  | s :: ss => s ++ '/' :: interSl ss

/-- Tests whether a character list ends with a slash. -/
def endsSl (l : List Char) : Bool := decide (l.getLast? = some '/')

/-- Modelled from the spec (section 4.4, Path Canonicalizer): the routine
clean, absent from the provided sources (path.go). It collapses repeated
slashes, resolves dot and dot-dot segments (dot-dot is a no-op at the
root), preserves a single trailing slash exactly when the input had one
and the resolved path is not the root, and always yields a path starting
with a slash. -/
def cleanChars (l : List Char) : List Char :=
  '/' :: interSl (resolveGo [] (tokens l)) ++
    (if endsSl l ∧ resolveGo [] (tokens l) ≠ [] then ['/'] else [])

/-- Modelled from the spec (sections 4.4 and 6, Canonicalization API):
clean on strings. -/
def CleanPath (s : String) : String := String.mk (cleanChars s.data)

theorem cleanChars_eq (l : List Char) :
    cleanChars l = '/' :: interSl (resolveGo [] (tokens l)) ++
      (if endsSl l ∧ resolveGo [] (tokens l) ≠ [] then ['/'] else []) := rfl

theorem splitSl_cons_ne (c : Char) (cs : List Char) (hc : c ≠ '/') :
    splitSl (c :: cs) = match splitSl cs with
      | [] => [[c]]
      | t :: ts => (c :: t) :: ts := by
  simp [splitSl, hc]

theorem splitSl_ne_nil : ∀ l : List Char, splitSl l ≠ [] := by
  intro l
  cases l with
  | nil => simp [splitSl]
  | cons c cs =>
    by_cases hc : c = '/'
    · simp [splitSl, hc]
    · simp only [splitSl, if_neg hc]
      cases splitSl cs <;> simp

theorem mem_splitSl_no_slash : ∀ (l : List Char) (t : List Char),
    t ∈ splitSl l → '/' ∉ t := by
  intro l
  induction l with
  | nil =>
    intro t ht
    simp [splitSl] at ht
    simp [ht]
  | cons c cs ih =>
    intro t ht
    by_cases hc : c = '/'
    · simp [splitSl, hc] at ht
      rcases ht with h | h
      · simp [h]
      · exact ih t h
    · simp only [splitSl, if_neg hc] at ht
      cases hsp : splitSl cs with
      | nil => exact absurd hsp (splitSl_ne_nil cs)
      | cons t0 ts =>
        rw [hsp] at ht
        rcases List.mem_cons.mp ht with h | h
        · subst h
          intro hmem
          rcases List.mem_cons.mp hmem with h | h
          · exact hc h.symm
          · exact ih t0 (hsp ▸ List.mem_cons_self t0 ts) h
        · exact ih t (hsp ▸ List.mem_cons_of_mem t0 h)

theorem splitSl_append_slash : ∀ (a b : List Char), (∀ c ∈ a, c ≠ '/') →
    splitSl (a ++ '/' :: b) = a :: splitSl b := by
  intro a
  induction a with
  | nil => intro b _; simp [splitSl]
  | cons c a ih =>
    intro b h
    have hc : c ≠ '/' := h c (List.mem_cons_self c a)
    have hrest : ∀ x ∈ a, x ≠ '/' := fun x hx => h x (List.mem_cons_of_mem c hx)
    rw [List.cons_append, splitSl_cons_ne c _ hc, ih b hrest]

theorem splitSl_no_slash : ∀ a : List Char, (∀ c ∈ a, c ≠ '/') →
    splitSl a = [a] := by
  intro a
  induction a with
  | nil => intro _; rfl
  | cons c a ih =>
    intro h
    have hc : c ≠ '/' := h c (List.mem_cons_self c a)
    have hrest : ∀ x ∈ a, x ≠ '/' := fun x hx => h x (List.mem_cons_of_mem c hx)
    simp only [splitSl, if_neg hc, ih hrest]

theorem splitSl_concat_slash : ∀ x : List Char,
    splitSl (x ++ ['/']) = splitSl x ++ [[]] := by
  intro x
  induction x with
  | nil => simp [splitSl]
  | cons c cs ih =>
    by_cases hc : c = '/'
    · simp [splitSl, hc, ih]
    · rw [List.cons_append, splitSl_cons_ne c _ hc, splitSl_cons_ne c _ hc, ih]
      cases hsp : splitSl cs with
      | nil => exact absurd hsp (splitSl_ne_nil cs)
      | cons t ts => simp

theorem tokens_cons_slash (x : List Char) : tokens ('/' :: x) = tokens x := by
  simp [tokens, splitSl]

theorem tokens_concat_slash (x : List Char) : tokens (x ++ ['/']) = tokens x := by
  simp [tokens, splitSl_concat_slash, List.filter_append]

theorem tokens_good : ∀ (l : List Char) (t : List Char), t ∈ tokens l →
    t ≠ [] ∧ '/' ∉ t := by
  intro l t ht
  simp only [tokens, List.mem_filter, Bool.not_eq_eq_eq_not, Bool.not_true,
    List.isEmpty_eq_false] at ht
  exact ⟨ht.2, mem_splitSl_no_slash l t ht.1⟩

theorem tokens_interSl : ∀ segs : List (List Char),
    (∀ t ∈ segs, t ≠ [] ∧ '/' ∉ t) → tokens (interSl segs) = segs := by
  intro segs
  induction segs with
  | nil => intro _; rfl
  | cons s ss ih =>
    intro h
    have hs := h s (List.mem_cons_self s ss)
    have hns : ∀ c ∈ s, c ≠ '/' := fun c hc he => hs.2 (he ▸ hc)
    have hrest : ∀ t ∈ ss, t ≠ [] ∧ '/' ∉ t :=
      fun t ht => h t (List.mem_cons_of_mem s ht)
    cases ss with
    | nil =>
      simp [interSl, tokens, splitSl_no_slash s hns, List.filter,
        List.isEmpty_eq_false.mpr hs.1]
    | cons s2 ss2 =>
      have : interSl (s :: s2 :: ss2) = s ++ '/' :: interSl (s2 :: ss2) := rfl
      rw [this]
      simp only [tokens, splitSl_append_slash s _ hns, List.filter]
      have hemp : s.isEmpty = false := List.isEmpty_eq_false.mpr hs.1
      simp only [hemp, Bool.not_false]
      have := ih hrest
      simp only [tokens] at this
      rw [this]

theorem resolveGo_good : ∀ (ts acc : List (List Char)),
    (∀ t ∈ acc, t ≠ [] ∧ '/' ∉ t ∧ t ≠ ['.'] ∧ t ≠ ['.', '.']) →
    (∀ t ∈ ts, t ≠ [] ∧ '/' ∉ t) →
    ∀ t ∈ resolveGo acc ts, t ≠ [] ∧ '/' ∉ t ∧ t ≠ ['.'] ∧ t ≠ ['.', '.'] := by
  intro ts
  induction ts with
  | nil =>
    intro acc hacc _ t ht
    rw [resolveGo, List.mem_reverse] at ht
    exact hacc t ht
  | cons s ss ih =>
    intro acc hacc hts t ht
    have hs := hts s (List.mem_cons_self s ss)
    have hrest : ∀ x ∈ ss, x ≠ [] ∧ '/' ∉ x :=
      fun x hx => hts x (List.mem_cons_of_mem s hx)
    by_cases h1 : s = ['.']
    · rw [resolveGo, if_pos h1] at ht
      exact ih acc hacc hrest t ht
    · by_cases h2 : s = ['.', '.']
      · rw [resolveGo, if_neg h1, if_pos h2] at ht
        exact ih acc.tail (fun x hx => hacc x (List.mem_of_mem_tail hx)) hrest t ht
      · rw [resolveGo, if_neg h1, if_neg h2] at ht
        refine ih (s :: acc) ?_ hrest t ht
        intro x hx
        rcases List.mem_cons.mp hx with h | h
        · subst h
          exact ⟨hs.1, hs.2, h1, h2⟩
        · exact hacc x h

theorem resolveGo_no_dots : ∀ (ts acc : List (List Char)),
    (∀ t ∈ ts, t ≠ ['.'] ∧ t ≠ ['.', '.']) →
    resolveGo acc ts = acc.reverse ++ ts := by
  intro ts
  induction ts with
  | nil => intro acc _; simp [resolveGo]
  | cons s ss ih =>
    intro acc h
    have hs := h s (List.mem_cons_self s ss)
    have hrest : ∀ x ∈ ss, x ≠ ['.'] ∧ x ≠ ['.', '.'] :=
      fun x hx => h x (List.mem_cons_of_mem s hx)
    rw [resolveGo, if_neg hs.1, if_neg hs.2, ih (s :: acc) hrest]
    simp

theorem getLast?_no_slash : ∀ s : List Char, '/' ∉ s → s.getLast? ≠ some '/' := by
  intro s hs he
  rcases List.getLast?_eq_some_iff.mp he with ⟨ys, hys⟩
  subst hys
  exact hs (List.mem_append.mpr (Or.inr (List.mem_cons_self '/' [])))

theorem interSl_ends_no_slash : ∀ segs : List (List Char), segs ≠ [] →
    (∀ t ∈ segs, t ≠ [] ∧ '/' ∉ t) →
    endsSl ('/' :: interSl segs) = false := by
  intro segs
  induction segs with
  | nil => intro h; exact absurd rfl h
  | cons s ss ih =>
    intro _ h
    have hs := h s (List.mem_cons_self s ss)
    have hrest : ∀ t ∈ ss, t ≠ [] ∧ '/' ∉ t :=
      fun t ht => h t (List.mem_cons_of_mem s ht)
    cases ss with
    | nil =>
      simp only [interSl, endsSl, decide_eq_false_iff_not]
      cases s with
      | nil => exact absurd rfl hs.1
      | cons c s' =>
        rw [List.getLast?_cons_cons]
        exact getLast?_no_slash (c :: s') hs.2
    | cons s2 ss2 =>
      have hi : interSl (s :: s2 :: ss2) = s ++ '/' :: interSl (s2 :: ss2) := rfl
      have hih := ih (by simp) hrest
      simp only [endsSl, decide_eq_false_iff_not] at hih ⊢
      rw [hi]
      have : ('/' :: (s ++ '/' :: interSl (s2 :: ss2))) =
          (('/' :: s) ++ ('/' :: interSl (s2 :: ss2))) := by simp
      rw [this, List.getLast?_append]
      intro hcon
      cases hor : ('/' :: interSl (s2 :: ss2)).getLast? with
      | none => simp [hor] at hcon; simp_all
      | some c =>
        rw [hor] at hcon
        simp only [Option.or_some, Option.some.injEq] at hcon
        exact hih (hor ▸ hcon ▸ rfl)

theorem cleanChars_idem : ∀ l : List Char, cleanChars (cleanChars l) = cleanChars l := by
  intro l
  have hgood : ∀ t ∈ resolveGo [] (tokens l),
      t ≠ [] ∧ '/' ∉ t ∧ t ≠ ['.'] ∧ t ≠ ['.', '.'] :=
    resolveGo_good (tokens l) [] (by intro t ht; cases ht) (tokens_good l)
  have hgood2 : ∀ t ∈ resolveGo [] (tokens l), t ≠ [] ∧ '/' ∉ t :=
    fun t ht => ⟨(hgood t ht).1, (hgood t ht).2.1⟩
  have hnodots : ∀ t ∈ resolveGo [] (tokens l), t ≠ ['.'] ∧ t ≠ ['.', '.'] :=
    fun t ht => ⟨(hgood t ht).2.2.1, (hgood t ht).2.2.2⟩
  have htok : tokens (cleanChars l) = resolveGo [] (tokens l) := by
    rw [cleanChars_eq l, List.cons_append, tokens_cons_slash]
    by_cases hts : endsSl l ∧ resolveGo [] (tokens l) ≠ []
    · rw [if_pos hts, tokens_concat_slash, tokens_interSl _ hgood2]
    · rw [if_neg hts, List.append_nil, tokens_interSl _ hgood2]
  have hres : resolveGo [] (tokens (cleanChars l)) = resolveGo [] (tokens l) := by
    rw [htok, resolveGo_no_dots _ [] hnodots, List.reverse_nil, List.nil_append]
  rw [cleanChars_eq (cleanChars l), hres]
  by_cases hempty : resolveGo [] (tokens l) = []
  · have hts2 : ¬(endsSl (cleanChars l) ∧ resolveGo [] (tokens l) ≠ []) := by
      intro hcon; exact hcon.2 hempty
    have hts : ¬(endsSl l ∧ resolveGo [] (tokens l) ≠ []) := by
      intro hcon; exact hcon.2 hempty
    rw [if_neg hts2, List.append_nil, cleanChars_eq l, if_neg hts, List.append_nil]
  · by_cases hend : endsSl l = true
    · have hts : endsSl l ∧ resolveGo [] (tokens l) ≠ [] := ⟨hend, hempty⟩
      have hcl : cleanChars l =
          '/' :: interSl (resolveGo [] (tokens l)) ++ ['/'] := by
        rw [cleanChars_eq l, if_pos hts]
      have hendscl : endsSl (cleanChars l) = true := by
        rw [hcl]
        simp only [endsSl, decide_eq_true_eq]
        rw [List.getLast?_concat]
      rw [if_pos ⟨hendscl, hempty⟩, hcl]
    · have hts : ¬(endsSl l ∧ resolveGo [] (tokens l) ≠ []) := by
        intro hcon; exact hend hcon.1
      have hcl : cleanChars l = '/' :: interSl (resolveGo [] (tokens l)) := by
        rw [cleanChars_eq l, if_neg hts, List.append_nil]
      have hendscl : endsSl (cleanChars l) = false := by
        rw [hcl]
        exact interSl_ends_no_slash _ hempty hgood2
      have hts2 : ¬(endsSl (cleanChars l) ∧ resolveGo [] (tokens l) ≠ []) := by
        intro hcon
        rw [hendscl] at hcon
        exact Bool.false_ne_true hcon.1
      rw [if_neg hts2, List.append_nil, hcl]

/-- C6: path canonicalization is idempotent, and on the concrete example
path /a//b/../c/. it yields /a/c. -/
theorem cleanPath_idempotent : ∀ p : String,
    CleanPath (CleanPath p) = CleanPath p ∧ CleanPath "/a//b/../c/." = "/a/c" := by
  intro p
  constructor
  · show String.mk (cleanChars (cleanChars p.data)) = String.mk (cleanChars p.data)
    rw [cleanChars_idem]
  · decide

/-- Translation of a request path string into the slash-separated segments
consumed by the matcher: the leading slash is dropped and the remainder is
split at every slash. -/
def toSegs (p : String) : List String :=
  match p.data with
  | '/' :: rest => (splitSl rest).map (fun t => String.mk t)
  | _ => (splitSl p.data).map (fun t => String.mk t)

/-- Modelled from the spec (section 4.2): getValue of tree.go resolves a
request path against one method tree. -/
def getValue {H : Type} (t : List (Pat × H)) (path : String) : MatchOutcome H :=
  lookupList t (toSegs path)

/-- Embedding of the Router struct of router.go: one tree per method (the
trees map) plus the configuration flags that drive dispatch. -/
structure RouterM (H : Type) where
  trees : List (String × List (Pat × H))
  redirectTrailingSlash : Bool
  redirectFixedPath : Bool
  handleMethodNotAllowed : Bool
deriving DecidableEq, Repr

/-- Lookup of the tree registered for a method, as r.trees[method]. -/
def findTree {H : Type} (r : RouterM H) (method : String) :
    Option (List (Pat × H)) :=
  (r.trees.find? (fun e => e.1 == method)).map (fun e => e.2)

/-- Embedding of Router.Lookup from router.go: when a tree exists for the
method the path is resolved against it; otherwise the result is the
not-found outcome with a false trailing-slash hint (nil, nil, false). -/
def routerLookup {H : Type} (r : RouterM H) (method path : String) :
    MatchOutcome H :=
  match findTree r method with
  | some root => getValue root path
  | none => .notFound false

/-- Registration failures. Go panics are modelled as error values: the
invalidPattern value stands for the panic carrying the message that the
path must begin with a slash, and indexOutOfRange for the runtime bounds
panic of an indexing expression. -/
inductive RegErr where
  | indexOutOfRange
  | invalidPattern
  | duplicateRoute
  | routeConflict
deriving DecidableEq, Repr

/-- Parsing one pattern token: a leading colon denotes a named parameter,
a leading star a catch-all, anything else a static segment. -/
def parseTok (x : String) : Seg :=
  match x.data with
  | ':' :: n => .param (String.mk n)
  | '*' :: n => .catchAll (String.mk n)
  | _ => .static x

/-- Parsing a whole pattern string into its segments. -/
def parsePattern (s : String) : Pat := (toSegs s).map parseTok

/-- Modelled from the spec (section 4.1, Route Inserter): insertion of a
route into one method tree (tree.go is absent from the sources); an
insertion that conflicts with a registered route is rejected, as
DuplicateRoute for an exactly repeated pattern and RouteConflict
otherwise. -/
def addRoute {H : Type} (t : List (Pat × H)) (pat : Pat) (h : H) :
    Except RegErr (List (Pat × H)) :=
  if t.any (fun e => conflict e.1 pat) then
    .error
      (if t.any (fun e => e.1 == pat) then .duplicateRoute else .routeConflict)
  else .ok (t ++ [(pat, h)])

/-- Updating the tree stored for a method. -/
def setTree {H : Type} (ts : List (String × List (Pat × H))) (method : String)
    (t : List (Pat × H)) : List (String × List (Pat × H)) :=
  match ts with
  | [] => [(method, t)]
  | e :: rest =>
    if e.1 == method then (method, t) :: rest else e :: setTree rest method t

/-- Embedding of the registration closure returned by Router.Handle in
router.go: the closure first evaluates the indexing expression path[0]
(on the empty string that is an out-of-bounds runtime panic), panics when
the leading byte is not a slash (the invalidPattern error of the model)
and otherwise inserts the route into the tree of the method. -/
def handleReg {H : Type} (r : RouterM H) (method path : String) (h : H) :
    Except RegErr (RouterM H) :=
  match path.data with
  | [] => .error .indexOutOfRange
  | c :: _ =>
    if c ≠ '/' then .error .invalidPattern
    else
      match addRoute ((findTree r method).getD []) (parsePattern path) h with
      | .ok t => .ok { r with trees := setTree r.trees method t }
      | .error e => .error e

/-- The dispatch decision taken by ServeHTTP for one request, before any
bytes are written: serve a matched handler, redirect for a trailing
slash, redirect to a case-corrected path, answer 405, or answer 404. -/
inductive Decision (H : Type) where
  | handled (h : H) (params : List (String × String))
  | redirectTsr (location : String) (code : Nat)
  | redirectFixed (location : String) (code : Nat)
  | methodNotAllowed
  | notFoundResp
deriving DecidableEq, Repr

/-- Embedding of the trailing-slash toggle of ServeHTTP (router.go): a
path longer than one byte ending in a slash loses it, any other path
gains one. -/
def toggleSlash (p : String) : String :=
  if p.length > 1 ∧ endsSl p.data then String.mk p.data.dropLast else p ++ "/"

/-- ASCII-only case folding. -/
def asciiLower (c : Char) : Char :=
  if 'A' ≤ c ∧ c ≤ 'Z' then Char.ofNat (c.toNat + 32) else c

/-- Case-insensitive equality of segments under ASCII folding. -/
def ciEq (a b : String) : Bool := a.data.map asciiLower == b.data.map asciiLower

/-- Modelled from the spec (section 4.3): case-insensitive matching of one
pattern against path segments; dynamic segments follow the consumption
rules of the exact matcher. -/
def ciMatch : Pat → List String → Bool
  | [], [] => true
  | .static s :: r, x :: xs => ciEq s x && ciMatch r xs
  | .param _ :: r, x :: xs => (x != "") && ciMatch r xs
  | .catchAll _ :: r, xs => r.isEmpty && !xs.isEmpty
  | _, _ => false

/-- Modelled from the spec (section 4.3): the corrected path is rebuilt
from the stored original-case static segments, while dynamic segments
contribute the input bytes verbatim. -/
def correctedSegs : Pat → List String → List String
  | .static s :: r, _ :: xs => s :: correctedSegs r xs
  | .param _ :: r, x :: xs => x :: correctedSegs r xs
  | .catchAll _ :: _, xs => xs
  | _, _ => []

/-- Rendering segments back into a path string. -/
def renderPath (segs : List String) : String :=
  "/" ++ String.intercalate "/" segs

/-- Modelled from the spec (section 4.3, Case-Insensitive Corrector):
findCaseInsensitivePath of tree.go, absent from the sources. It looks for
a route matching the cleaned path under ASCII case folding and, when
allowed, retries with a single trailing slash toggled. -/
def findCaseInsensitive {H : Type} (t : List (Pat × H)) (cleaned : String)
    (fixTs : Bool) : String × Bool :=
  match t.find? (fun e => ciMatch e.1 (toSegs cleaned)) with
  | some e => (renderPath (correctedSegs e.1 (toSegs cleaned)), true)
  | none =>
    if fixTs then
      match t.find? (fun e => ciMatch e.1 (toggleTs (toSegs cleaned))) with
      | some e => (renderPath (correctedSegs e.1 (toggleTs (toSegs cleaned))), true)
      | none => ("", false)
    else ("", false)

/-- Embedding of the 405 and 404 tail of ServeHTTP (router.go): when
enabled, every other method tree is probed with the raw request path; a
hit yields Method Not Allowed, otherwise Not Found. -/
def serveFallback {H : Type} (r : RouterM H) (method path : String) : Decision H :=
  if r.handleMethodNotAllowed ∧
      r.trees.any (fun e => e.1 != method && (getValue e.2 path).isMatched) then
    .methodNotAllowed
  else .notFoundResp

/-- Embedding of Router.ServeHTTP from router.go: the tree of the request
method is probed with the raw request path; only on a miss (and for paths
other than the root, methods other than CONNECT) are the trailing-slash
redirect and then the case-insensitive correction of the cleaned path
attempted, before falling back to 405 and 404 handling. -/
def serveDecision {H : Type} (r : RouterM H) (method path : String) : Decision H :=
  match findTree r method with
  | none => serveFallback r method path
  | some root =>
    match getValue root path with
    | .matched h ps => .handled h ps
    | .notFound tsr =>
      if method ≠ "CONNECT" ∧ path ≠ "/" then
        if tsr ∧ r.redirectTrailingSlash then
          .redirectTsr (toggleSlash path) (if method = "GET" then 301 else 307)
        else if r.redirectFixedPath then
          match findCaseInsensitive root (CleanPath path) r.redirectTrailingSlash with
          | (fp, true) => .redirectFixed fp (if method = "GET" then 301 else 307)
          | (_, false) => serveFallback r method path
        else serveFallback r method path
      else serveFallback r method path

/-- A router with no registered routes, used to evaluate the theorems. -/
def emptyRouter : RouterM Nat := ⟨[], true, true, true⟩

/-- C2 (amended to nonempty patterns): registering any nonempty pattern
whose first byte is not a slash fails with InvalidPattern, surfaced
synchronously to the caller as the error value of the registration call,
leaving the router untouched. -/
theorem handle_nonslash_invalid {H : Type} (r : RouterM H)
    (method path : String) (h : H) (hne : path ≠ "")
    (hhead : path.data.head? ≠ some '/') :
    handleReg r method path h = Except.error RegErr.invalidPattern := by
  cases hd : path.data with
  | nil => exact absurd (String.ext (hd.trans rfl)) hne
  | cons c cs =>
    have hc : c ≠ '/' := by
      intro he
      rw [hd, he] at hhead
      exact hhead rfl
    simp only [handleReg, hd]
    rw [if_pos hc]

/-- Evaluation of the amended C2 at a concrete non-slash pattern. -/
theorem handle_nonslash_invalid_witness :
    ("foo" : String) ≠ "" ∧
    handleReg emptyRouter "GET" "foo" 0 = Except.error RegErr.invalidPattern :=
  ⟨by decide,
    handle_nonslash_invalid emptyRouter "GET" "foo" 0 (by decide) (by decide)⟩

/-- C2 counterexample: the empty pattern does not begin with a slash, yet
its registration does not fail with InvalidPattern — it fails with the
out-of-bounds read of pattern[0]. -/
theorem handle_empty_not_invalidPattern :
    (("" : String).data.head? ≠ some '/') ∧
    handleReg emptyRouter "GET" "" 0 ≠ Except.error RegErr.invalidPattern ∧
    handleReg emptyRouter "GET" "" 0 = Except.error RegErr.indexOutOfRange := by
  refine ⟨by decide, ?_, rfl⟩
  intro hcon
  have h2 : RegErr.indexOutOfRange = RegErr.invalidPattern :=
    Except.error.inj hcon
  exact absurd h2 (by decide)

/-- C4: evaluation of the registration entry point at the empty pattern:
the byte access pattern[0] reads out of bounds (a runtime index panic),
so the empty pattern is not rejected with InvalidPattern as the
specification requires. -/
theorem handle_empty_out_of_bounds :
    handleReg emptyRouter "GET" "" 0 = Except.error RegErr.indexOutOfRange := rfl

/-- C3: matching never errors: Lookup is a total function whose outcome
is always either a matched handler with parameters or a not-found value
carrying the trailing-slash hint; for a method with no registered tree it
is the not-found outcome with a false hint. -/
theorem lookup_never_errors {H : Type} (r : RouterM H) (method path : String) :
    (findTree r method = none → routerLookup r method path = .notFound false) ∧
    ((∃ h ps, routerLookup r method path = .matched h ps) ∨
      (∃ b, routerLookup r method path = .notFound b)) := by
  constructor
  · intro hnone
    simp [routerLookup, hnone]
  · cases hout : routerLookup r method path with
    | matched h ps => exact Or.inl ⟨h, ps, rfl⟩
    | notFound b => exact Or.inr ⟨b, rfl⟩

/-- Evaluation of C3 on a method with no registered tree. -/
theorem lookup_never_errors_witness :
    routerLookup emptyRouter "GET" "/x" = MatchOutcome.notFound false :=
  (lookup_never_errors emptyRouter "GET" "/x").1 rfl

theorem serveFallback_ne_redirectFixed {H : Type} (r : RouterM H)
    (method path fp : String) (code : Nat) :
    serveFallback r method path ≠ Decision.redirectFixed fp code := by
  unfold serveFallback
  split <;> simp

/-- C5: the primary matcher always receives the raw request path: when
the raw path matches, ServeHTTP dispatches that handler no matter what
canonicalization would produce; and every fixed-path redirect it issues
comes from the corrector applied to the CleanPath canonicalization of the
path — the only consumer of the canonicalizer in dispatch. -/
theorem serve_raw_path_first {H : Type} (r : RouterM H) (method path : String) :
    (∀ root h ps, findTree r method = some root →
      getValue root path = .matched h ps →
      serveDecision r method path = .handled h ps) ∧
    (∀ fp code, serveDecision r method path = .redirectFixed fp code →
      ∃ root, findTree r method = some root ∧
        findCaseInsensitive root (CleanPath path) r.redirectTrailingSlash =
          (fp, true)) := by
  constructor
  · intro root h ps hft hg
    simp [serveDecision, hft, hg]
  · intro fp code hserve
    unfold serveDecision at hserve
    split at hserve
    · exact absurd hserve (serveFallback_ne_redirectFixed r method path fp code)
    · rename_i root hft
      split at hserve
      · simp at hserve
      · split at hserve
        · split at hserve
          · simp at hserve
          · split at hserve
            · split at hserve
              · rename_i fp2 hci
                simp only [Decision.redirectFixed.injEq] at hserve
                exact ⟨root, hft, by rw [hci, hserve.1]⟩
              · exact absurd hserve
                  (serveFallback_ne_redirectFixed r method path fp code)
            · exact absurd hserve
                (serveFallback_ne_redirectFixed r method path fp code)
        · exact absurd hserve
            (serveFallback_ne_redirectFixed r method path fp code)

/-- Evaluation of C5 on a one-route router whose raw request path matches
exactly. -/
theorem serve_raw_path_first_witness :
    serveDecision
      (⟨[("GET", [([Seg.static "Foo"], (0 : Nat))])], true, true, true⟩ :
        RouterM Nat) "GET" "/Foo" = Decision.handled 0 [] :=
  (serve_raw_path_first
      (⟨[("GET", [([Seg.static "Foo"], (0 : Nat))])], true, true, true⟩ :
        RouterM Nat) "GET" "/Foo").1
    [([Seg.static "Foo"], 0)] 0 [] (by decide) (by decide)

/-- Embedding of NewMiddleware from the middleware source file: a chain
entry is an optional function, none standing for a Go nil function value.
The code appends the given functions to a freshly made slice of the same
length whose elements are all nil. -/
def NewMiddleware {α : Type} (ms : List (Option α)) : List (Option α) :=
  if ms.isEmpty then [] else List.replicate ms.length none ++ ms

/-- Embedding of Middleware.Then: the final handler is the given one, or
the default mux when the given one is nil; the chain is applied from its
last entry to its first, so the first entry ends outermost. Applying a
nil chain entry is a Go nil-function-call panic, modelled as the none
outcome. -/
def Then {H : Type} (dflt : H) (mw : List (Option (H → H))) (h : Option H) :
    Option H :=
  mw.foldr (fun e acc => acc.bind (fun x => e.map (fun f => f x)))
    (some (h.getD dflt))

/-- C8: evaluation of NewMiddleware at a one-element list of middleware:
the resulting chain has length two and starts with a nil entry, instead
of the intended one-element chain holding exactly the given function;
chaining the result onto any handler then calls a nil function (the none
outcome), which is what Router.Handle does on every registration that
passes middleware. -/
theorem newMiddleware_nil_padding :
    NewMiddleware [some (0 : Nat)] = [none, some 0] ∧
    (NewMiddleware [some (0 : Nat)]).length = 2 ∧
    Then 9 (NewMiddleware [some (fun x : Nat => x + 1)]) (some 5) = none :=
  ⟨rfl, rfl, rfl⟩

/-- C9: Then composes the chain with the first entry outermost: on a
chain of non-nil functions and a non-nil handler it produces exactly
mw[0] (mw[1] (... (mw[n-1] h))); the empty chain returns the handler
unchanged; and a nil handler is replaced by the default mux. -/
theorem then_composes {H : Type} (dflt h0 : H) (ms : List (H → H)) :
    Then dflt (ms.map some) (some h0) =
      some (ms.foldr (fun f a => f a) h0) ∧
    Then dflt [] (some h0) = some h0 ∧
    Then dflt ([] : List (Option (H → H))) none = some dflt := by
  refine ⟨?_, rfl, rfl⟩
  induction ms with
  | nil => rfl
  | cons m ms ih =>
    simp only [Then, List.map_cons, List.foldr_cons] at ih ⊢
    rw [ih]
    rfl

/-- The request-parameter store: the process-wide Go map keyed by request
pointers is modelled as a function from requests to optional parameter
maps; a nil request pointer is none. -/
def PStore (R P : Type) : Type := R → Option P

/-- The store before any association is made. -/
def emptyStore {R P : Type} : PStore R P := fun _ => none

/-- Embedding of defaultSetParams from the parameter source file: a nil
request panics with ErrRequestNil (the error outcome); a non-nil
parameter map is stored for the request, and nil deletes the
association. -/
def defaultSetParams {R P : Type} [DecidableEq R] (r : Option R)
    (params : Option P) (st : PStore R P) : Except Unit (PStore R P) :=
  match r with
  | none => .error ()
  | some req =>
    match params with
    | some p => .ok (fun x => if x = req then some p else st x)
    | none => .ok (fun x => if x = req then none else st x)

/-- Embedding of defaultParams from the parameter source file: a nil
request panics with ErrRequestNil; otherwise the stored association, or
nil when absent, is returned. -/
def defaultParams {R P : Type} [DecidableEq R] (r : Option R)
    (st : PStore R P) : Except Unit (Option P) :=
  match r with
  | none => .error ()
  | some req => .ok (st req)

/-- C10: the default parameter store round-trips: setting a non-nil
parameter map for a request and reading it back yields exactly that map;
setting nil removes the association, so reading yields nil; and a request
never set also reads as nil. -/
theorem params_roundtrip {R P : Type} [DecidableEq R] (r : R) (p : P)
    (st : PStore R P) :
    ((defaultSetParams (some r) (some p) st).bind
        (fun st2 => defaultParams (some r) st2) = .ok (some p)) ∧
    ((defaultSetParams (some r) none st).bind
        (fun st2 => defaultParams (some r) st2) = .ok none) ∧
    defaultParams (some r) (emptyStore : PStore R P) = .ok none := by
  refine ⟨?_, ?_, rfl⟩ <;>
    simp [defaultSetParams, defaultParams, Except.bind]

end HttpRouter
